import Mathlib

/-!
Shallow embedding of the FurnitureFlip backend core (src/backend/main.py).

Modelling conventions:
* Python floats are modelled as exact rationals ℚ; `round(x, 2)` is modelled by
  `round2` (round to integer cents, half rounded via Mathlib's `round`).
* `math.sqrt` is modelled by `sqrtQ`, an integer-precision rational square root.
  No claim below depends on the value of the standard deviation; only the facts
  `sqrtQ x ≥ 0` and `max 2 (sqrtQ x) ≥ 2` are ever used.
* Python strings are worked with as `List Char` where convenient; `str.replace`,
  `str.strip`, `str.lower` are modelled by the corresponding list operations.
* The external Google CSE HTTP call is modelled by a `SearchOutcome` value that
  is passed in: either the decoded item list, or `exn`, standing for any raised
  exception (timeout from `requests.get`, non-2xx via `raise_for_status`, or a
  malformed payload via `r.json()`).  The source has no try/except, so in the
  embedding an `exn` outcome flows through `Except` unhandled.
-/

/-- Python regex `\s` character class (ASCII part), used by the `\s*` in
`PRICE_RE` and by `str.strip`. -/
def pySpace (c : Char) : Bool :=
  c = ' ' || c = '\t' || c = '\n' || c = '\r' || c = '\x0b' || c = '\x0c'

/-- Python regex `\d` character class (ASCII decimal digits). -/
def pyDigit (c : Char) : Bool :=
  '0' ≤ c && c ≤ '9'

/-- ASCII `str.lower` on a single character. -/
def pyLowerChar (c : Char) : Char :=
  if 'A' ≤ c ∧ c ≤ 'Z' then Char.ofNat (c.toNat + 32) else c

/-- Python `str.lower` on the character list of a string. -/
def pyLower (cs : List Char) : List Char := cs.map pyLowerChar

/-- Python `round(x, 2)`: round to two decimal places. -/
def round2 (x : ℚ) : ℚ := (round (100 * x) : ℤ) / 100

/-- Numeric value of a run of decimal digit characters. -/
def digitsToNat (ds : List Char) : ℕ :=
  ds.foldl (fun a c => a * 10 + (c.toNat - '0'.toNat)) 0

/-- Python `float(...)` as used by `safe_float` on the matched price token:
an optional integer digit run, optionally followed by `.` and a fractional
digit run, and nothing else; any other shape raises, which `safe_float`
converts to `None`.  (Tokens produced by the price regex always have this
shape, see `matchAt_parses` below.) -/
def pyFloatParse (cs : List Char) : Option ℚ :=
  let ip := cs.takeWhile pyDigit
  match cs.dropWhile pyDigit with
  | [] => if ip.isEmpty then none else some ((digitsToNat ip : ℚ))
  | c :: fp =>
    if c = '.' ∧ fp.all pyDigit ∧ (ip ≠ [] ∨ fp ≠ []) then
      some ((digitsToNat ip : ℚ) + (digitsToNat fp : ℚ) / (10 : ℚ) ^ fp.length)
    else none

/-- Python `str.replace("$", "")` on a character list. -/
def stripDollar (cs : List Char) : List Char := cs.filter (fun c => c ≠ '$')

/-- Python `str.strip()` on a character list. -/
def pyStrip (cs : List Char) : List Char :=
  ((cs.dropWhile pySpace).reverse.dropWhile pySpace).reverse

/-- The optional `\$?` at the start of `PRICE_RE`: split off a leading dollar
sign if present.  (If a leading `$` is present but the rest of the pattern
fails, the alternative without the `$` also fails, since `$` is neither a
space nor a digit; so consuming it greedily is exact.) -/
def dollarSplit (cs : List Char) : List Char × List Char :=
  match cs with
  | [] => ([], [])
  | c :: t => if c = '$' then (['$'], t) else ([], c :: t)

/-- The optional `(?:\.\d{1,2})?` tail of `PRICE_RE`: a dot followed by one or
two digits, or nothing. -/
def fracOf : List Char → List Char
  | [] => []
  | c :: t =>
    if c = '.' then
      let fd := (t.takeWhile pyDigit).take 2
      if fd = [] then [] else '.' :: fd
    else []

/-- One anchored attempt of `PRICE_RE = (\$?\s*\d{1,5}(?:\.\d{1,2})?)` at the
head of `cs`; returns the text of group 1 on success.  Greedy matching of
`\$?`, `\s*`, `\d{1,5}` and the fraction is exact here because no shorter
choice can ever make the remainder succeed (nothing follows the group). -/
def matchAt (cs : List Char) : Option (List Char) :=
  let p := dollarSplit cs
  let sPart := p.2.takeWhile pySpace
  let cs2 := p.2.dropWhile pySpace
  let digs := (cs2.takeWhile pyDigit).take 5
  if digs = [] then none
  else some (p.1 ++ sPart ++ digs ++ fracOf (cs2.drop digs.length))

/-- `re.search` with `PRICE_RE`: try the pattern at each position, leftmost
match wins. -/
def pySearch : List Char → Option (List Char)
  | [] => none
  | c :: t =>
    match matchAt (c :: t) with
    | some tok => some tok
    | none => pySearch t

/-- `extract_price_from_text` from src/backend/main.py: comma removal, regex
search, then `val = m.group(1).replace("$", "").strip()` and `safe_float`. -/
def extract_price_from_text (text : String) : Option ℚ :=
  if text.data.isEmpty then none
  else
    match pySearch (text.data.filter (fun c => c ≠ ',')) with
    | none => none
    | some tok => pyFloatParse (pyStrip (stripDollar tok))

/-- A price token occurs somewhere in `cs`: the regex matches at some
position. -/
def hasToken (cs : List Char) : Prop :=
  ∃ i ∈ List.range cs.length, (matchAt (cs.drop i)).isSome = true

instance (cs : List Char) : Decidable (hasToken cs) :=
  List.decidableBEx _ (List.range cs.length)

/-- One decoded Google CSE item as assembled by `google_cse_search`:
`{"title": it.get("title"), "url": it.get("link"), "snippet": it.get("snippet", "")}`. -/
structure SearchResult where
  title : Option String
  url : Option String
  snippet : String
deriving DecidableEq, Repr

/-- Outcome of the HTTP interaction inside `google_cse_search`: either the
decoded item list, or an exception (`requests.get` timeout,
`raise_for_status` on non-2xx, or `r.json()` on a malformed payload). -/
inductive SearchOutcome
  | ok (items : List SearchResult)
  | exn
deriving DecidableEq, Repr

/-- The module-level configuration read from the environment. -/
structure Config where
  enableLiveComps : Bool
  googleCseApiKey : String
  googleCseCx : String
deriving DecidableEq, Repr

/-- An exception escaping `google_cse_search`. -/
inductive AdapterError
  | requestFailed
deriving DecidableEq, Repr

/-- `google_cse_search` from src/backend/main.py.  With missing credentials it
returns `[]`; otherwise it performs the HTTP request, whose outcome is the
injected `outcome`.  The function body has no exception handler, so a raise
is an `Except.error`. -/
def google_cse_search (cfg : Config) (outcome : SearchOutcome) (q : String)
    (num : ℕ) : Except AdapterError (List SearchResult) :=
  if cfg.googleCseApiKey ≠ "" ∧ cfg.googleCseCx ≠ "" then
    match outcome with
    | .exn => .error .requestFailed
    | .ok items => .ok items
  else .ok []

/-- One comparable listing. -/
structure Comp where
  source : String
  title : String
  price : ℚ
  url : Option String
deriving DecidableEq, Repr

/-- Python `a or b` on an optional string (`None` and `""` are falsy). -/
def pyOrStr (a : Option String) (d : String) : String :=
  match a with
  | some s => if s = "" then d else s
  | none => d

/-- Python `a or b` where `a` is `extract_price_from_text(...)` (`None` and
`0.0` are falsy). -/
def pyOrPrice (a b : Option ℚ) : Option ℚ :=
  match a with
  | some v => if v ≠ 0 then some v else b
  | none => b

/-- `brand_part = f"{brand} " if brand else ""`. -/
def brandPartOf (brand : Option String) : List Char :=
  match brand with
  | some b => if b.data = [] then [] else b.data ++ [' ']
  | none => []

/-- `cond_part = f" {condition}" if condition else ""`. -/
def condPartOf (condition : Option String) : List Char :=
  match condition with
  | some c => if c.data = [] then [] else ' ' :: c.data
  | none => []

/-- `item = (item or "").strip() or "item"`. -/
def itemCharsOf (item : String) : List Char :=
  let s := pyStrip item.data
  if s = [] then "item".data else s

/-- The live-comp construction in the loop body of `build_comps`: default the
title, resolve a price by trying the title first and then the snippet, with
`0.0` for a complete miss, and round it. -/
def compOfResult (bp itemChars : List Char) (r : SearchResult) : Comp :=
  let title := pyOrStr r.title ⟨bp ++ itemChars ++ " (similar)".data⟩
  let price :=
    (pyOrPrice (extract_price_from_text title)
      (extract_price_from_text r.snippet)).getD 0
  { source := "Web (CSE)", title := title, price := round2 price, url := r.url }

/-- The fallback base-price selection in `build_comps`: a default of 30, then
the brand rule, then the item-category rules, each later rule overwriting the
earlier ones. -/
def syntheticBase (itemChars : List Char) (brand : Option String) : ℚ :=
  let b0 : ℚ := 30
  let b1 :=
    match brand with
    | some b => if b.data ≠ [] ∧ pyLower b.data = "ikea".data then 35 else b0
    | none => b0
  let low := pyLower itemChars
  let b2 :=
    if low = "sofa".data ∨ low = "couch".data ∨ low = "sectional".data then 250
    else b1
  let b3 := if low = "table".data ∨ low = "dining table".data then 120 else b2
  if low = "chair".data then 35 else b3

/-- The four estimated fallback comps returned at the end of `build_comps`. -/
def syntheticComps (bp itemChars : List Char) (brand : Option String) :
    List Comp :=
  let base := syntheticBase itemChars brand
  [ { source := "Marketplace", title := ⟨bp ++ itemChars ++ " (similar)".data⟩,
      price := round2 (base * (85 / 100)), url := none },
    { source := "Marketplace", title := ⟨bp ++ itemChars ++ " (similar)".data⟩,
      price := round2 (base * (95 / 100)), url := none },
    { source := "Marketplace", title := ⟨bp ++ itemChars ++ " (similar)".data⟩,
      price := round2 (base * (105 / 100)), url := none },
    { source := "Retail (est.)",
      title := ⟨"New ".data ++ bp ++ itemChars ++ " (estimate)".data⟩,
      price := round2 (base * (145 / 100)), url := none } ]

/-- `build_comps` from src/backend/main.py.  The query string is built exactly
as in the source; the HTTP outcome is the injected `outcome`.  There is no
try/except around the live branch, so an exception from `google_cse_search`
propagates (`Except.error`). -/
def build_comps (cfg : Config) (outcome : SearchOutcome) (item : String)
    (brand : Option String) (condition : Option String) :
    Except AdapterError (List Comp) :=
  let itemChars := itemCharsOf item
  let bp := brandPartOf brand
  let cp := condPartOf condition
  let q : String := ⟨bp ++ itemChars ++ cp ++ " price".data⟩
  if cfg.enableLiveComps ∧ cfg.googleCseApiKey ≠ "" ∧ cfg.googleCseCx ≠ "" then
    match google_cse_search cfg outcome q 5 with
    | .error e => .error e
    | .ok results =>
      let comps0 := results.map (compOfResult bp itemChars)
      let comps :=
        if comps0 ≠ [] ∧ comps0.all (fun c => c.price = 0) then [] else comps0
      if comps ≠ [] then .ok comps
      else .ok (syntheticComps bp itemChars brand)
  else .ok (syntheticComps bp itemChars brand)

/-- Confidence level of a recommendation. -/
inductive Confidence
  | low
  | medium
deriving DecidableEq, Repr

/-- The notes emitted by `recommend_price`, one constructor per distinct
message template in the source (the payload of the comparison notes is the
expected price interpolated into the f-string). -/
inductive RecNote
  | notEnoughComps
  | belowComps (e : ℚ)
  | aboveComps (e : ℚ)
  | withinRange
  | listHigherTip
  | photosTip
deriving DecidableEq, Repr

/-- The dictionary returned by `recommend_price`. -/
structure Recommendation where
  recommended_price : ℚ
  low : ℚ
  high : ℚ
  confidence : Confidence
  notes : List RecNote
deriving DecidableEq, Repr

/-- `prices = [c.get("price") for c in comps if isinstance(...) and c.get("price") > 0]`. -/
def positivePrices (comps : List Comp) : List ℚ :=
  (comps.map Comp.price).filter (fun p => 0 < p)

/-- `avg = sum(prices) / len(prices)` over the positive prices. -/
def avgOf (comps : List Comp) : ℚ :=
  (positivePrices comps).sum / ((positivePrices comps).length : ℚ)

/-- Integer-precision model of `math.sqrt` on a non-negative rational.  Only
`0 ≤ sqrtQ x` is ever relied on below. -/
def sqrtQ (x : ℚ) : ℚ :=
  (Nat.sqrt (x.num.toNat * x.den) : ℚ) / (x.den : ℚ)

/-- Python `a if a else d` on an optional float (`None` and `0.0` falsy). -/
def pyOrQ (a : Option ℚ) (d : ℚ) : ℚ :=
  match a with
  | some v => if v ≠ 0 then v else d
  | none => d

/-- Python `min` on a non-empty list. -/
def pyMinQ : List ℚ → ℚ
  | [] => 0
  | h :: t => t.foldl min h

/-- Python `max` on a non-empty list. -/
def pyMaxQ : List ℚ → ℚ
  | [] => 0
  | h :: t => t.foldl max h

/-- The population standard deviation expression inside `recommend_price`
(`math.sqrt(sum((p - avg) ** 2 for p in prices) / len(prices))`), with
`math.sqrt` modelled by `sqrtQ`. -/
def stdevOf (comps : List Comp) : ℚ :=
  sqrtQ (((positivePrices comps).map (fun p => (p - avgOf comps) ^ 2)).sum /
    ((positivePrices comps).length : ℚ))

/-- `recommend_price` from src/backend/main.py. -/
def recommend_price (expected_price : Option ℚ) (comps : List Comp) :
    Recommendation :=
  let prices := positivePrices comps
  if prices = [] then
    let rec0 := pyOrQ expected_price 50
    { recommended_price := round2 rec0
      low := round2 (rec0 * (9 / 10))
      high := round2 (rec0 * (11 / 10))
      confidence := .low
      notes := [.notEnoughComps] }
  else
    let avg := avgOf comps
    let rec0 := pyOrQ expected_price avg
    let rec1 := rec0 * (6 / 10) + avg * (4 / 10)
    let stdev := stdevOf comps
    let band := max 2 stdev
    let lo := max 1 (rec1 - band)
    let hi := rec1 + band
    let confidence := if prices.length ≥ 3 then Confidence.medium else Confidence.low
    let expNotes :=
      match expected_price with
      | some e =>
        if e ≠ 0 then
          if e < pyMinQ prices then [RecNote.belowComps e]
          else if e > pyMaxQ prices then [RecNote.aboveComps e]
          else [RecNote.withinRange]
        else []
      | none => []
    { recommended_price := round2 rec1
      low := round2 lo
      high := round2 hi
      confidence := confidence
      notes := expNotes ++ [.listHigherTip, .photosTip] }

/-- Decidable side condition used in the amended C3: the expected price is
absent, zero (falsy, hence treated as absent), or at least 199/180 (the least
value whose rounded 90% band floor stays at or above 1). -/
def expectedOk (e : Option ℚ) : Bool :=
  match e with
  | none => true
  | some x => x = 0 || 199 / 180 ≤ x

/-- A comp list shared by the worked examples of the spec: three bare comps
priced 80, 90 and 70. -/
def exampleComps : List Comp :=
  [⟨"", "", 80, none⟩, ⟨"", "", 90, none⟩, ⟨"", "", 70, none⟩]

theorem round2_mono {x y : ℚ} (h : x ≤ y) : round2 x ≤ round2 y := by
  have hr : round (100 * x) ≤ round (100 * y) := by
    rw [round_eq, round_eq]
    exact Int.floor_mono (by linarith)
  have hc : ((round (100 * x) : ℤ) : ℚ) ≤ ((round (100 * y) : ℤ) : ℚ) := by exact_mod_cast hr
  rw [round2, round2]
  linarith

theorem one_le_round2 {x : ℚ} (h : (199 / 200 : ℚ) ≤ x) : 1 ≤ round2 x := by
  have h1 : round2 (199 / 200 : ℚ) = 1 := by norm_num [round2, round_eq]
  calc (1 : ℚ) = round2 (199 / 200) := h1.symm
    _ ≤ round2 x := round2_mono h

/-- Claim C1 (code_bug evidence).  The claim says a failing live search call
(timeout, non-2xx, malformed payload) is caught at the Comp Assembler boundary
and degraded to the synthetic fallback.  The source has no try/except: with
live lookup enabled and configured, an exception raised inside
`google_cse_search` propagates out of `build_comps`. -/
theorem claim_C1 : ∀ (key cx item : String) (brand condition : Option String),
    key ≠ "" → cx ≠ "" →
    build_comps ⟨true, key, cx⟩ SearchOutcome.exn item brand condition =
      Except.error AdapterError.requestFailed := by
  intro key cx item brand condition hk hc
  unfold build_comps google_cse_search
  rw [if_pos ⟨rfl, hk, hc⟩, if_pos ⟨hk, hc⟩]

/-- Witness for C1 at a concrete failing input. -/
theorem claim_C1_witness :
    build_comps ⟨true, "k", "c"⟩ SearchOutcome.exn "chair" none none =
      Except.error AdapterError.requestFailed :=
  claim_C1 "k" "c" "chair" none none (by decide) (by decide)

/-- Claim C9.  An expected price of 0 is treated exactly like an absent one by
`recommend_price`, in both branches: `0.0` is falsy in every `if
expected_price` test of the source. -/
theorem claim_C9 : ∀ (comps : List Comp),
    recommend_price (some 0) comps = recommend_price none comps := by
  intro comps
  unfold recommend_price
  simp [pyOrQ]

/-- Counterexample to claim C5 as stated.  The claim says that with no usable
comps the recommended price equals `expected_price` only when it is provided
and greater than 0, and otherwise equals the default 50.0.  For the provided
negative expected price -5 the code keeps -5 (any nonzero float is truthy),
not 50. -/
theorem claim_C5_cex :
    ¬ ((recommend_price (some (-5)) ([] : List Comp)).recommended_price = 50) := by
  have h : (recommend_price (some (-5)) ([] : List Comp)).recommended_price = -5 := by
    simp only [recommend_price, positivePrices, List.map_nil, List.filter_nil, if_pos]
    norm_num [pyOrQ, round2, round_eq]
  rw [h]
  norm_num

/-- Claim C5, amended: with no usable comps the recommended price equals
`expected_price` when it is provided and nonzero (Python truthiness), else the
default 50.0; the band is the rounded 0.9 and 1.1 multiples of the recommended
price; confidence is "low"; and there is exactly one note, the default-used
explanation.  In particular `recommend(None, [])` gives 50.0 / 45.0 / 55.0 /
"low". -/
theorem claim_C5 :
    (∀ (e : Option ℚ) (comps : List Comp), positivePrices comps = [] →
        recommend_price e comps =
          { recommended_price := round2 (pyOrQ e 50)
            low := round2 (pyOrQ e 50 * (9 / 10))
            high := round2 (pyOrQ e 50 * (11 / 10))
            confidence := Confidence.low
            notes := [RecNote.notEnoughComps] }) ∧
    recommend_price none [] =
      { recommended_price := 50, low := 45, high := 55,
        confidence := Confidence.low, notes := [RecNote.notEnoughComps] } := by
  constructor
  · intro e comps h
    simp only [recommend_price, h, if_pos]
  · simp only [recommend_price, positivePrices, List.map_nil, List.filter_nil, if_pos,
      Recommendation.mk.injEq]
    norm_num [pyOrQ, round2, round_eq]

/-- Witness for (the amended) claim C5 at a concrete provided nonzero
expected price. -/
theorem claim_C5_witness :
    recommend_price (some 7) [] =
      { recommended_price := round2 (pyOrQ (some 7) 50)
        low := round2 (pyOrQ (some 7) 50 * (9 / 10))
        high := round2 (pyOrQ (some 7) 50 * (11 / 10))
        confidence := Confidence.low
        notes := [RecNote.notEnoughComps] } :=
  claim_C5.1 (some 7) [] rfl

/-- Claim C6.  With live lookup disabled, `build_comps("chair", None, None)`
returns exactly the four synthetic comps, in order, with sources
"Marketplace" (three times) and "Retail (est.)", prices 29.75, 33.25, 36.75
and 50.75 (base 35.0 times 0.85, 0.95, 1.05, 1.45), and no urls; and the
synthetic fallback always returns exactly 4 comps for every input. -/
theorem claim_C6 :
    (∀ (key cx : String) (oc : SearchOutcome),
        build_comps ⟨false, key, cx⟩ oc "chair" none none =
          Except.ok
            [ { source := "Marketplace", title := "chair (similar)",
                price := 29.75, url := none },
              { source := "Marketplace", title := "chair (similar)",
                price := 33.25, url := none },
              { source := "Marketplace", title := "chair (similar)",
                price := 36.75, url := none },
              { source := "Retail (est.)", title := "New chair (estimate)",
                price := 50.75, url := none } ]) ∧
    (∀ (bp itemChars : List Char) (brand : Option String),
        (syntheticComps bp itemChars brand).length = 4) := by
  constructor
  · intro key cx oc
    have hbase : syntheticBase (itemCharsOf "chair") none = 35 := by decide
    have hitem : itemCharsOf "chair" = "chair".data := by decide
    have hbp : brandPartOf none = [] := rfl
    simp only [build_comps, Bool.false_eq_true, false_and, if_false, hbp, hitem,
      syntheticComps, hbase, Except.ok.injEq]
    rw [show syntheticBase "chair".data none = 35 from by decide]
    norm_num [round2, round_eq]
  · intro bp itemChars brand
    rfl

/-- Claim C7.  In the synthetic base-price selection the item-category rules
are evaluated after the brand rule, so for a recognized lowercased item
category and brand "ikea" (case-insensitive, nonempty) the item-category base
wins: sofa/couch/sectional give 250, table/dining table give 120, chair gives
35; in particular item "sofa" with brand "ikea" yields base 250, not 35. -/
theorem claim_C7 : ∀ (itemChars : List Char) (b : String),
    b.data ≠ [] → pyLower b.data = "ikea".data →
    ((pyLower itemChars = "sofa".data ∨ pyLower itemChars = "couch".data ∨
        pyLower itemChars = "sectional".data) →
      syntheticBase itemChars (some b) = 250) ∧
    ((pyLower itemChars = "table".data ∨ pyLower itemChars = "dining table".data) →
      syntheticBase itemChars (some b) = 120) ∧
    (pyLower itemChars = "chair".data → syntheticBase itemChars (some b) = 35) ∧
    syntheticBase "sofa".data (some "ikea") = 250 := by
  intro itemChars b hb hlb
  refine ⟨?_, ?_, ?_, by decide⟩
  · rintro (h | h | h) <;>
      · simp only [syntheticBase, h]
        rw [if_neg (by decide), if_neg (by decide), if_pos (by decide)]
  · rintro (h | h) <;>
      · simp only [syntheticBase, h]
        rw [if_neg (by decide), if_pos (by decide)]
  · intro h
    simp only [syntheticBase, h]
    rw [if_pos (by decide)]

/-- Witness for claim C7: an IKEA sofa gets the sofa base 250, not the brand
base 35. -/
theorem claim_C7_witness : syntheticBase "sofa".data (some "ikea") = 250 :=
  (claim_C7 "sofa".data "ikea" (by decide) (by decide)).1 (Or.inl (by decide))

/-- Counterexample to claim C4 as stated.  The claim takes
`base = expected_price` whenever an expected price is provided; the code uses
Python truthiness, so the provided expected price 0 is ignored and the base
falls back to the average.  At expected_price 0 with one comp of price 80 the
claim predicts round2(0.6*0 + 0.4*80) = 32; the code returns 80. -/
theorem claim_C4_cex :
    ¬ ((recommend_price (some 0) [⟨"", "", 80, none⟩]).recommended_price =
        round2 ((0 : ℚ) * (6 / 10) + avgOf [⟨"", "", 80, none⟩] * (4 / 10))) := by
  have hp : positivePrices [(⟨"", "", 80, none⟩ : Comp)] = [80] := by decide
  have havg : avgOf [(⟨"", "", 80, none⟩ : Comp)] = 80 := by
    rw [avgOf, hp]
    norm_num
  have h1 : (recommend_price (some 0) [⟨"", "", 80, none⟩]).recommended_price = 80 := by
    simp only [recommend_price, hp, havg]
    rw [if_neg (by decide)]
    norm_num [pyOrQ, round2, round_eq]
  rw [h1, havg]
  norm_num [round2, round_eq]

/-- Claim C4, amended: for every comp list with at least one positive price,
with `avg` the mean of the positive prices and `base = expected_price` when
the expected price is provided and nonzero (else `base = avg`),
`recommend_price` returns `round2(0.6*base + 0.4*avg)`; and the worked
example `recommend(100, [80, 90, 70])` yields 92.0, confidence "medium", and
the above-the-comp-range note. -/
theorem claim_C4 :
    (∀ (e : Option ℚ) (comps : List Comp), positivePrices comps ≠ [] →
        (recommend_price e comps).recommended_price =
          round2 (pyOrQ e (avgOf comps) * (6 / 10) + avgOf comps * (4 / 10))) ∧
    ((recommend_price (some 100) exampleComps).recommended_price = 92 ∧
      (recommend_price (some 100) exampleComps).confidence = Confidence.medium ∧
      (recommend_price (some 100) exampleComps).notes =
        [RecNote.aboveComps 100, RecNote.listHigherTip, RecNote.photosTip]) := by
  have key : ∀ (e : Option ℚ) (comps : List Comp), positivePrices comps ≠ [] →
      (recommend_price e comps).recommended_price =
        round2 (pyOrQ e (avgOf comps) * (6 / 10) + avgOf comps * (4 / 10)) := by
    intro e comps h
    simp only [recommend_price]
    rw [if_neg h]
  have hne : positivePrices exampleComps ≠ [] := by decide
  have hp : positivePrices exampleComps = [80, 90, 70] := by decide
  have havg : avgOf exampleComps = 80 := by
    rw [avgOf, hp]
    norm_num
  refine ⟨key, ?_, ?_, ?_⟩
  · rw [key (some 100) exampleComps hne, havg]
    norm_num [pyOrQ, round2, round_eq]
  · simp only [recommend_price, hp]
    rw [if_neg (by decide)]
    decide
  · simp only [recommend_price, hp]
    rw [if_neg (by decide),
      show pyMinQ [(80 : ℚ), 90, 70] = 70 from by decide,
      show pyMaxQ [(80 : ℚ), 90, 70] = 90 from by decide]
    decide

/-- Witness for (the amended) claim C4 at a concrete comp list with a
positive price. -/
theorem claim_C4_witness :
    (recommend_price none [⟨"", "", 44, none⟩]).recommended_price =
      round2 (pyOrQ none (avgOf [⟨"", "", 44, none⟩]) * (6 / 10) +
        avgOf [⟨"", "", 44, none⟩] * (4 / 10)) :=
  claim_C4.1 none [⟨"", "", 44, none⟩] (by decide)

/-- Claim C2.  With live lookup enabled and configured, a non-empty live
result list whose resolved comp prices are all 0.0 is discarded entirely, and
`build_comps` returns the synthetic fallback for the same item/brand; the
all-zero live list never reaches the caller. -/
theorem claim_C2 : ∀ (key cx item : String) (brand condition : Option String)
    (results : List SearchResult),
    key ≠ "" → cx ≠ "" → results ≠ [] →
    (∀ r ∈ results,
      (compOfResult (brandPartOf brand) (itemCharsOf item) r).price = 0) →
    build_comps ⟨true, key, cx⟩ (SearchOutcome.ok results) item brand condition =
      Except.ok (syntheticComps (brandPartOf brand) (itemCharsOf item) brand) := by
  intro key cx item brand condition results hk hc hne hall
  unfold build_comps google_cse_search
  rw [if_pos ⟨rfl, hk, hc⟩, if_pos ⟨hk, hc⟩]
  have hmapne : results.map (compOfResult (brandPartOf brand) (itemCharsOf item)) ≠ [] := by
    simpa [List.map_eq_nil_iff] using hne
  have hallz : (results.map (compOfResult (brandPartOf brand) (itemCharsOf item))).all
      (fun c => c.price = 0) = true := by
    rw [List.all_eq_true]
    intro c hcmem
    rcases List.mem_map.mp hcmem with ⟨r, hr, hrc⟩
    simpa [← hrc] using hall r hr
  dsimp only
  have hin : (if (List.map (compOfResult (brandPartOf brand) (itemCharsOf item)) results ≠ [] ∧
      ((List.map (compOfResult (brandPartOf brand) (itemCharsOf item)) results).all
        fun c => decide (c.price = 0)) = true)
      then ([] : List Comp)
      else List.map (compOfResult (brandPartOf brand) (itemCharsOf item)) results) = [] :=
    if_pos ⟨hmapne, hallz⟩
  rw [hin, if_neg (by simp)]

/-- Witness for claim C2: one live result with no extractable price anywhere
resolves to price 0, and the synthetic fallback is returned. -/
theorem claim_C2_witness :
    build_comps ⟨true, "k", "c"⟩
        (SearchOutcome.ok [⟨some "no price here", some "u", "nothing"⟩])
        "chair" none none =
      Except.ok (syntheticComps (brandPartOf none) (itemCharsOf "chair") none) := by
  have hz : ∀ r ∈ [(⟨some "no price here", some "u", "nothing"⟩ : SearchResult)],
      (compOfResult (brandPartOf none) (itemCharsOf "chair") r).price = 0 := by
    intro r hr
    rw [List.mem_singleton.mp hr]
    have h1 : extract_price_from_text
        (pyOrStr (some "no price here")
          ⟨brandPartOf none ++ itemCharsOf "chair" ++ " (similar)".data⟩) = none := by
      decide
    have h2 : extract_price_from_text "nothing" = none := by decide
    simp only [compOfResult, h1, h2, pyOrPrice, Option.getD]
    norm_num [round2, round_eq]
  exact claim_C2 "k" "c" "chair" none none
    [⟨some "no price here", some "u", "nothing"⟩] (by decide) (by decide) (by decide) hz

theorem round2_zero : round2 0 = 0 := by
  norm_num [round2, round_eq]

theorem round2_nonneg {x : ℚ} (h : 0 ≤ x) : 0 ≤ round2 x := by
  have := round2_mono h
  rwa [round2_zero] at this

theorem length_le_sum {l : List ℚ} (h : ∀ p ∈ l, (1 : ℚ) ≤ p) :
    (l.length : ℚ) ≤ l.sum := by
  induction l with
  | nil => simp
  | cons a t ih =>
    have ha := h a (by simp)
    have ht := ih (fun p hp => h p (by simp [hp]))
    simp only [List.length_cons, List.sum_cons]
    push_cast
    linarith

theorem one_le_avgOf {comps : List Comp}
    (h : ∀ p ∈ positivePrices comps, (1 : ℚ) ≤ p)
    (hne : positivePrices comps ≠ []) : 1 ≤ avgOf comps := by
  rw [avgOf, le_div_iff]
  · rw [one_mul]
    exact length_le_sum h
  · exact_mod_cast List.length_pos.mpr hne

/-- Counterexample to claim C3 as stated.  The claimed invariant is asserted
for every comp list and every optional expected price, but with no comps and
a provided expected price of 1 the code returns low = round2(0.9) = 0.9,
violating the `low >= 1.0` floor. -/
theorem claim_C3_cex :
    ¬ (1 ≤ (recommend_price (some 1) ([] : List Comp)).low) := by
  have h : (recommend_price (some 1) ([] : List Comp)).low = 9 / 10 := by
    simp only [recommend_price, positivePrices, List.map_nil, List.filter_nil, if_pos]
    norm_num [pyOrQ, round2, round_eq]
  rw [h]
  norm_num

/-- Claim C3, amended: the invariant `low ≤ recommended_price ≤ high`, all
three non-negative and `low ≥ 1.0`, holds provided every positive comp price
is at least 1 and the expected price, when provided, is either 0 (falsy,
treated as absent) or at least 199/180 (≈ 1.106, the least value whose
rounded 90% stays at or above 1).  Without these bounds the code can return
low above the recommended price or below the 1.0 floor (see the
counterexample). -/
theorem claim_C3 : ∀ (e : Option ℚ) (comps : List Comp),
    expectedOk e = true →
    (∀ c ∈ comps, 0 < c.price → 1 ≤ c.price) →
    1 ≤ (recommend_price e comps).low ∧
    (recommend_price e comps).low ≤ (recommend_price e comps).recommended_price ∧
    (recommend_price e comps).recommended_price ≤ (recommend_price e comps).high ∧
    0 ≤ (recommend_price e comps).low ∧
    0 ≤ (recommend_price e comps).recommended_price ∧
    0 ≤ (recommend_price e comps).high := by
  intro e comps he hc
  have heQ : ∀ x, e = some x → x = 0 ∨ (199 / 180 : ℚ) ≤ x := by
    intro x hx
    rw [hx] at he
    simpa [expectedOk, decide_eq_true_eq] using he
  by_cases hp : positivePrices comps = []
  · have hrec : (199 / 180 : ℚ) ≤ pyOrQ e 50 := by
      cases e with
      | none => norm_num [pyOrQ]
      | some x =>
        rcases heQ x rfl with h0 | hge
        · simp only [pyOrQ, h0]
          norm_num
        · have hx0 : x ≠ 0 := by
            intro h
            rw [h] at hge
            norm_num at hge
          simpa [pyOrQ, hx0] using hge
    have h0 : (0 : ℚ) ≤ pyOrQ e 50 := le_trans (by norm_num) hrec
    have hA : recommend_price e comps =
        { recommended_price := round2 (pyOrQ e 50)
          low := round2 (pyOrQ e 50 * (9 / 10))
          high := round2 (pyOrQ e 50 * (11 / 10))
          confidence := Confidence.low
          notes := [RecNote.notEnoughComps] } := by
      simp only [recommend_price]
      rw [if_pos hp]
    rw [hA]
    have hlow1 : (1 : ℚ) ≤ round2 (pyOrQ e 50 * (9 / 10)) :=
      one_le_round2 (by linarith)
    refine ⟨hlow1, round2_mono (by linarith), round2_mono (by linarith),
      le_trans (by norm_num) hlow1, round2_nonneg h0,
      round2_nonneg (by linarith)⟩
  · have hpp : ∀ p ∈ positivePrices comps, (1 : ℚ) ≤ p := by
      intro p hmem
      rcases List.mem_filter.mp hmem with ⟨hmap, hpos⟩
      rcases List.mem_map.mp hmap with ⟨c, hcmem, hcp⟩
      rw [← hcp]
      exact hc c hcmem (by rw [hcp]; exact_mod_cast of_decide_eq_true hpos)
    have h1avg : 1 ≤ avgOf comps := one_le_avgOf hpp hp
    have hbase : 1 ≤ pyOrQ e (avgOf comps) := by
      cases e with
      | none => simpa [pyOrQ] using h1avg
      | some x =>
        rcases heQ x rfl with h0 | hge
        · simpa [pyOrQ, h0] using h1avg
        · have hx0 : x ≠ 0 := by
            intro h
            rw [h] at hge
            norm_num at hge
          simp only [pyOrQ, hx0]
          rw [if_pos hx0]
          linarith
    simp only [recommend_price]
    rw [if_neg hp]
    have h1 : (1 : ℚ) ≤ pyOrQ e (avgOf comps) * (6 / 10) + avgOf comps * (4 / 10) := by
      linarith
    have hb : (0 : ℚ) ≤ max 2 (stdevOf comps) :=
      le_trans (by norm_num) (le_max_left 2 _)
    have hlow1 : (1 : ℚ) ≤ round2 (max 1 (pyOrQ e (avgOf comps) * (6 / 10) +
        avgOf comps * (4 / 10) - max 2 (stdevOf comps))) := by
      calc (1 : ℚ) = round2 1 := by norm_num [round2, round_eq]
        _ ≤ _ := round2_mono (le_max_left 1 _)
    refine ⟨hlow1, round2_mono (max_le h1 (by linarith)), round2_mono (by linarith),
      le_trans (by norm_num) hlow1, round2_nonneg (by linarith),
      round2_nonneg (by linarith)⟩

/-- Witness for (the amended) claim C3 at a concrete expected price and comp
list. -/
theorem claim_C3_witness :
    1 ≤ (recommend_price (some 100) [⟨"", "", 80, none⟩]).low ∧
    (recommend_price (some 100) [⟨"", "", 80, none⟩]).low ≤
      (recommend_price (some 100) [⟨"", "", 80, none⟩]).recommended_price ∧
    (recommend_price (some 100) [⟨"", "", 80, none⟩]).recommended_price ≤
      (recommend_price (some 100) [⟨"", "", 80, none⟩]).high ∧
    0 ≤ (recommend_price (some 100) [⟨"", "", 80, none⟩]).low ∧
    0 ≤ (recommend_price (some 100) [⟨"", "", 80, none⟩]).recommended_price ∧
    0 ≤ (recommend_price (some 100) [⟨"", "", 80, none⟩]).high :=
  claim_C3 (some 100) [⟨"", "", 80, none⟩] (by norm_num [expectedOk]) (by decide)

theorem pyDigit_ne_dollar {c : Char} (h : pyDigit c = true) : c ≠ '$' := by
  intro he
  subst he
  exact absurd h (by decide)

theorem pyDigit_ne_dot {c : Char} (h : pyDigit c = true) : c ≠ '.' := by
  intro he
  subst he
  exact absurd h (by decide)

theorem pySpace_ne_dollar {c : Char} (h : pySpace c = true) : c ≠ '$' := by
  intro he
  subst he
  exact absurd h (by decide)

theorem pyDigit_not_space {c : Char} (h : pyDigit c = true) : pySpace c = false := by
  cases hsp : pySpace c
  · rfl
  · exfalso
    simp only [pySpace, Bool.or_eq_true, decide_eq_true_eq] at hsp
    rcases hsp with ((((h1 | h1) | h1) | h1) | h1) | h1 <;> subst h1 <;>
      exact absurd h (by decide)

theorem takeWhile_append_all {p : Char → Bool} {xs : List Char}
    (h : ∀ c ∈ xs, p c = true) (ys : List Char) :
    (xs ++ ys).takeWhile p = xs ++ ys.takeWhile p := by
  induction xs with
  | nil => simp
  | cons a t ih =>
    have ha := h a (by simp)
    simp only [List.cons_append, List.takeWhile_cons, ha, if_true]
    rw [ih (fun c hc => h c (by simp [hc]))]

theorem dropWhile_append_all {p : Char → Bool} {xs : List Char}
    (h : ∀ c ∈ xs, p c = true) (ys : List Char) :
    (xs ++ ys).dropWhile p = ys.dropWhile p := by
  induction xs with
  | nil => simp
  | cons a t ih =>
    have ha := h a (by simp)
    simp only [List.cons_append, List.dropWhile_cons, ha, if_true]
    exact ih (fun c hc => h c (by simp [hc]))

theorem takeWhile_all {p : Char → Bool} {xs : List Char}
    (h : ∀ c ∈ xs, p c = true) : xs.takeWhile p = xs := by
  have := takeWhile_append_all h []
  simpa using this

theorem dropWhile_all {p : Char → Bool} {xs : List Char}
    (h : ∀ c ∈ xs, p c = true) : xs.dropWhile p = [] := by
  have := dropWhile_append_all h []
  simpa using this

theorem dropWhile_head_false {p : Char → Bool} {c : Char} (t : List Char)
    (h : p c = false) : (c :: t).dropWhile p = c :: t := by
  simp [List.dropWhile_cons, h]

theorem takeWhile_head_false {p : Char → Bool} {c : Char} (t : List Char)
    (h : p c = false) : (c :: t).takeWhile p = [] := by
  simp [List.takeWhile_cons, h]

theorem stripDollar_id {l : List Char} (h : ∀ c ∈ l, c ≠ '$') :
    stripDollar l = l := by
  rw [stripDollar, List.filter_eq_self]
  intro a ha
  simpa using h a ha

theorem pyStrip_of_no_space {m : List Char} (hm : ∀ c ∈ m, pySpace c = false) :
    pyStrip m = m := by
  rw [pyStrip]
  have h1 : m.dropWhile pySpace = m := by
    cases m with
    | nil => rfl
    | cons a t => exact dropWhile_head_false t (hm a (by simp))
  rw [h1]
  have h2 : m.reverse.dropWhile pySpace = m.reverse := by
    cases hr : m.reverse with
    | nil => rfl
    | cons a t =>
      refine dropWhile_head_false t (hm a ?_)
      have : a ∈ m.reverse := by rw [hr]; simp
      simpa using this
  rw [h2, List.reverse_reverse]

theorem pyStrip_spaces {xs m : List Char} (hx : ∀ c ∈ xs, pySpace c = true)
    (hm : ∀ c ∈ m, pySpace c = false) : pyStrip (xs ++ m) = m := by
  rw [pyStrip, dropWhile_append_all hx]
  have h1 : m.dropWhile pySpace = m := by
    cases m with
    | nil => rfl
    | cons a t => exact dropWhile_head_false t (hm a (by simp))
  rw [h1]
  have h2 : m.reverse.dropWhile pySpace = m.reverse := by
    cases hr : m.reverse with
    | nil => rfl
    | cons a t =>
      refine dropWhile_head_false t (hm a ?_)
      have : a ∈ m.reverse := by rw [hr]; simp
      simpa using this
  rw [h2, List.reverse_reverse]

theorem pyFloatParse_digits {ds : List Char} (hne : ds ≠ [])
    (hd : ∀ c ∈ ds, pyDigit c = true) :
    pyFloatParse ds = some ((digitsToNat ds : ℚ)) := by
  rw [pyFloatParse]
  simp only [takeWhile_all hd, dropWhile_all hd]
  rw [if_neg (by simpa [List.isEmpty_iff] using hne)]

theorem pyFloatParse_digits_frac {ds fd : List Char} (hne : ds ≠ [])
    (hd : ∀ c ∈ ds, pyDigit c = true) (hf : ∀ c ∈ fd, pyDigit c = true) :
    pyFloatParse (ds ++ '.' :: fd) =
      some ((digitsToNat ds : ℚ) + (digitsToNat fd : ℚ) / (10 : ℚ) ^ fd.length) := by
  rw [pyFloatParse]
  have ht : (ds ++ '.' :: fd).takeWhile pyDigit = ds := by
    rw [takeWhile_append_all hd, takeWhile_head_false fd (by decide), List.append_nil]
  have hdr : (ds ++ '.' :: fd).dropWhile pyDigit = '.' :: fd := by
    rw [dropWhile_append_all hd, dropWhile_head_false fd (by decide)]
  simp only [ht, hdr]
  rw [if_pos ⟨trivial, List.all_eq_true.mpr (by simpa using hf), Or.inl hne⟩]

theorem dollarSplit_fst (cs : List Char) :
    (dollarSplit cs).1 = [] ∨ (dollarSplit cs).1 = ['$'] := by
  cases cs with
  | nil => left; rfl
  | cons c t =>
    by_cases hc : c = '$'
    · right; simp [dollarSplit, hc]
    · left; simp [dollarSplit, hc]

theorem fracOf_spec (l : List Char) :
    fracOf l = [] ∨
      ∃ fd, fracOf l = '.' :: fd ∧ fd ≠ [] ∧ ∀ c ∈ fd, pyDigit c = true := by
  cases l with
  | nil => left; rfl
  | cons c t =>
    simp only [fracOf]
    by_cases hc : c = '.'
    · rw [if_pos hc]
      by_cases hfde : (t.takeWhile pyDigit).take 2 = []
      · rw [if_pos hfde]; left; rfl
      · rw [if_neg hfde]
        right
        exact ⟨(t.takeWhile pyDigit).take 2, rfl, hfde,
          fun c hc2 => List.mem_takeWhile_imp (List.take_subset _ _ hc2)⟩
    · rw [if_neg hc]; left; rfl

theorem stripDollar_token {dp sp digs fr : List Char}
    (hdp : dp = [] ∨ dp = ['$'])
    (hsp : ∀ c ∈ sp, pySpace c = true)
    (hdigs : ∀ c ∈ digs, pyDigit c = true)
    (hfr : fr = [] ∨ ∃ fd, fr = '.' :: fd ∧ fd ≠ [] ∧ ∀ c ∈ fd, pyDigit c = true) :
    stripDollar (dp ++ sp ++ digs ++ fr) = sp ++ digs ++ fr := by
  have h1 : stripDollar dp = [] := by
    rcases hdp with h | h <;> subst h <;> decide
  have h2 : stripDollar sp = sp :=
    stripDollar_id (fun c hc => pySpace_ne_dollar (hsp c hc))
  have h3 : stripDollar digs = digs :=
    stripDollar_id (fun c hc => pyDigit_ne_dollar (hdigs c hc))
  have h4 : stripDollar fr = fr := by
    rcases hfr with h | ⟨fd, hfd, _, hfdd⟩
    · subst h; rfl
    · subst hfd
      refine stripDollar_id ?_
      intro c hc
      rcases List.mem_cons.mp hc with h | h
      · subst h; decide
      · exact pyDigit_ne_dollar (hfdd c h)
  simp only [stripDollar, List.filter_append] at *
  rw [h1, h2, h3, h4, List.nil_append]

theorem pyStrip_token {sp digs fr : List Char}
    (hsp : ∀ c ∈ sp, pySpace c = true)
    (hdigs : ∀ c ∈ digs, pyDigit c = true)
    (hfr : fr = [] ∨ ∃ fd, fr = '.' :: fd ∧ fd ≠ [] ∧ ∀ c ∈ fd, pyDigit c = true) :
    pyStrip (sp ++ digs ++ fr) = digs ++ fr := by
  rw [List.append_assoc]
  refine pyStrip_spaces hsp ?_
  intro c hc
  rcases List.mem_append.mp hc with h | h
  · exact pyDigit_not_space (hdigs c h)
  · rcases hfr with hf | ⟨fd, hfd, _, hfdd⟩
    · subst hf; simp at h
    · subst hfd
      rcases List.mem_cons.mp h with h | h
      · subst h; decide
      · exact pyDigit_not_space (hfdd c h)

theorem parse_token {digs fr : List Char} (hne : digs ≠ [])
    (hdigs : ∀ c ∈ digs, pyDigit c = true)
    (hfr : fr = [] ∨ ∃ fd, fr = '.' :: fd ∧ fd ≠ [] ∧ ∀ c ∈ fd, pyDigit c = true) :
    ∃ v, pyFloatParse (digs ++ fr) = some v := by
  rcases hfr with h | ⟨fd, hfd, _, hfdd⟩
  · subst h
    rw [List.append_nil]
    exact ⟨_, pyFloatParse_digits hne hdigs⟩
  · subst hfd
    exact ⟨_, pyFloatParse_digits_frac hne hdigs hfdd⟩

/-- Every token produced by a successful anchored match of the price regex
parses to a number after dollar removal and stripping: `safe_float` never
fails on `m.group(1).replace("$", "").strip()`. -/
theorem matchAt_parses {cs tok : List Char} (h : matchAt cs = some tok) :
    ∃ v, pyFloatParse (pyStrip (stripDollar tok)) = some v := by
  simp only [matchAt] at h
  by_cases hd : ((List.dropWhile pySpace (dollarSplit cs).2).takeWhile pyDigit).take 5 = []
  · rw [if_pos hd] at h
    exact absurd h (by simp)
  · rw [if_neg hd] at h
    have htok : tok = (dollarSplit cs).1 ++
        (dollarSplit cs).2.takeWhile pySpace ++
        ((List.dropWhile pySpace (dollarSplit cs).2).takeWhile pyDigit).take 5 ++
        fracOf ((List.dropWhile pySpace (dollarSplit cs).2).drop
          (((List.dropWhile pySpace (dollarSplit cs).2).takeWhile pyDigit).take 5).length) := by
      injection h with h'
      exact h'.symm
    have hsp : ∀ c ∈ (dollarSplit cs).2.takeWhile pySpace, pySpace c = true :=
      fun c hc => List.mem_takeWhile_imp hc
    have hdigs : ∀ c ∈ ((List.dropWhile pySpace (dollarSplit cs).2).takeWhile pyDigit).take 5,
        pyDigit c = true :=
      fun c hc => List.mem_takeWhile_imp (List.take_subset _ _ hc)
    have hfr := fracOf_spec ((List.dropWhile pySpace (dollarSplit cs).2).drop
      (((List.dropWhile pySpace (dollarSplit cs).2).takeWhile pyDigit).take 5).length)
    rw [htok, List.append_assoc, List.append_assoc, ← List.append_assoc,
      ← List.append_assoc]
    rw [stripDollar_token (dollarSplit_fst cs) hsp hdigs hfr,
      pyStrip_token hsp hdigs hfr]
    exact parse_token hd hdigs hfr

theorem hasToken_cons (c : Char) (t : List Char) :
    hasToken (c :: t) ↔ (matchAt (c :: t)).isSome = true ∨ hasToken t := by
  constructor
  · rintro ⟨i, hi, hm⟩
    rw [List.mem_range] at hi
    cases i with
    | zero => left; simpa using hm
    | succ j =>
      right
      refine ⟨j, ?_, ?_⟩
      · rw [List.mem_range]
        simpa [List.length_cons, Nat.succ_lt_succ_iff] using hi
      · simpa using hm
  · rintro (hm | ⟨j, hj, hjm⟩)
    · exact ⟨0, by simp [List.mem_range], by simpa using hm⟩
    · rw [List.mem_range] at hj
      exact ⟨j + 1, by simp [List.mem_range, Nat.succ_lt_succ_iff, hj],
        by simpa using hjm⟩

theorem pySearch_none_iff (cs : List Char) : pySearch cs = none ↔ ¬ hasToken cs := by
  induction cs with
  | nil =>
    simp only [pySearch]
    constructor
    · rintro - ⟨i, hi, -⟩
      simp [List.mem_range] at hi
    · intro _; trivial
  | cons c t ih =>
    rw [pySearch, hasToken_cons]
    cases hm : matchAt (c :: t) with
    | some tok =>
      constructor
      · intro h; exact absurd h (by simp)
      · intro h; exact absurd (Or.inl (by simp [hm])) h
    | none =>
      rw [ih]
      constructor
      · intro h
        rintro (hs | ht)
        · simp at hs
        · exact h ht
      · intro h
        exact fun ht => h (Or.inr ht)

theorem pySearch_some {cs tok : List Char} (h : pySearch cs = some tok) :
    ∃ s, matchAt s = some tok := by
  induction cs with
  | nil => simp [pySearch] at h
  | cons c t ih =>
    rw [pySearch] at h
    cases hm : matchAt (c :: t) with
    | some tok2 =>
      rw [hm] at h
      injection h with h'
      exact ⟨c :: t, by rw [hm, h']⟩
    | none =>
      rw [hm] at h
      exact ih h

/-- `extract_price_from_text` returns `none` exactly when the price regex
matches nowhere in the comma-stripped text. -/
theorem extract_none_iff (t : String) :
    extract_price_from_text t = none ↔
      ¬ hasToken (t.data.filter (fun c => c ≠ ',')) := by
  rw [extract_price_from_text]
  by_cases he : t.data.isEmpty
  · rw [if_pos he]
    have hnil : t.data = [] := by simpa [List.isEmpty_iff] using he
    constructor
    · rintro - ⟨i, hi, -⟩
      rw [hnil] at hi
      simp [List.mem_range] at hi
    · intro _; rfl
  · rw [if_neg he]
    cases hs : pySearch (t.data.filter (fun c => c ≠ ',')) with
    | none =>
      rw [pySearch_none_iff] at hs
      simpa using hs
    | some tok =>
      have htk : hasToken (t.data.filter (fun c => c ≠ ',')) := by
        by_contra hcon
        rw [← pySearch_none_iff] at hcon
        rw [hs] at hcon
        simp at hcon
      rcases pySearch_some hs with ⟨s, hsm⟩
      rcases matchAt_parses hsm with ⟨v, hv⟩
      simp only [hv]
      constructor
      · intro h; exact absurd h (by simp)
      · intro h; exact absurd htk h

/-- Claim C8.  `extract_price_from_text` removes commas, then returns the
numeric value of the first token matching the price pattern (optional
currency marker, 1-5 integer digits, optional short fraction), and returns
none exactly when no token matches anywhere; in particular
`extract_price("$1,234.50 firm") = 1234.50` and
`extract_price("no price listed") = none`. -/
theorem claim_C8 :
    extract_price_from_text "$1,234.50 firm" = some (1234.50 : ℚ) ∧
    extract_price_from_text "no price listed" = none ∧
    ∀ t : String, extract_price_from_text t = none ↔
      ¬ hasToken (t.data.filter (fun c => c ≠ ',')) := by
  refine ⟨?_, by decide, extract_none_iff⟩
  have hs : pySearch ("$1,234.50 firm".data.filter (fun c => c ≠ ',')) =
      some "$1234.50".data := by decide
  have hq : pyStrip (stripDollar "$1234.50".data) = "1234.50".data := by decide
  rw [extract_price_from_text, if_neg (by decide), hs]
  dsimp only
  rw [hq]
  have h3 : "1234.50".data.takeWhile pyDigit = "1234".data := by decide
  have h4 : "1234.50".data.dropWhile pyDigit = '.' :: "50".data := by decide
  rw [pyFloatParse]
  simp only [h3, h4]
  rw [if_pos ⟨trivial, by decide, Or.inl (by decide)⟩,
    show digitsToNat "1234".data = 1234 from by decide,
    show digitsToNat "50".data = 50 from by decide]
  norm_num

/-- Witness for claim C8 using the no-token direction of the iff at a
concrete input. -/
theorem claim_C8_witness : extract_price_from_text "zzz" = none :=
  (claim_C8.2.2 "zzz").mpr (by decide)

theorem dollarSplit_ne {c : Char} (t : List Char) (h : c ≠ '$') :
    dollarSplit (c :: t) = ([], c :: t) := by
  simp [dollarSplit, h]

theorem cs2_run {ds rest : List Char} (hne : ds ≠ [])
    (hd : ∀ c ∈ ds, pyDigit c = true) :
    ∀ a', (∀ c ∈ a', pyDigit c = false) →
      ((List.dropWhile pySpace (a' ++ ds ++ rest)).takeWhile pyDigit).take 5 ≠ [] →
      List.dropWhile pySpace (a' ++ ds ++ rest) = ds ++ rest := by
  intro a'
  induction a' with
  | nil =>
    intro _ _
    rcases List.exists_cons_of_ne_nil hne with ⟨d, dt, hds⟩
    subst hds
    exact dropWhile_head_false _ (pyDigit_not_space (hd d (by simp)))
  | cons c t ih =>
    intro ha' hdig
    cases hc : pySpace c with
    | true =>
      have hstep : List.dropWhile pySpace ((c :: t) ++ ds ++ rest) =
          List.dropWhile pySpace (t ++ ds ++ rest) := by
        simp [List.dropWhile_cons, hc]
      rw [hstep] at hdig ⊢
      exact ih (fun x hx => ha' x (by simp [hx])) hdig
    | false =>
      exfalso
      have hstop : List.dropWhile pySpace ((c :: t) ++ ds ++ rest) =
          c :: (t ++ ds ++ rest) := by
        simpa using dropWhile_head_false (t ++ ds ++ rest) hc
      rw [hstop, takeWhile_head_false _ (ha' c (by simp))] at hdig
      simp at hdig

/-- A successful anchored match whose position is separated from a ≥6-digit
run only by digit-free characters matches exactly the first five digits of
the run: the token's numeric value is the value of those five digits. -/
theorem matchAt_run {a ds rest tok : List Char}
    (ha : ∀ c ∈ a, pyDigit c = false)
    (hd : ∀ c ∈ ds, pyDigit c = true)
    (hlen : 6 ≤ ds.length)
    (h : matchAt (a ++ ds ++ rest) = some tok) :
    pyFloatParse (pyStrip (stripDollar tok)) =
      some ((digitsToNat (ds.take 5) : ℚ)) := by
  have hdsne : ds ≠ [] := by
    intro h0
    rw [h0] at hlen
    simp at hlen
  obtain ⟨a', ha', hp2⟩ : ∃ a', (∀ c ∈ a', pyDigit c = false) ∧
      (dollarSplit (a ++ ds ++ rest)).2 = a' ++ ds ++ rest := by
    cases a with
    | nil =>
      rcases List.exists_cons_of_ne_nil hdsne with ⟨d, dt, hds⟩
      refine ⟨[], by simp, ?_⟩
      rw [List.nil_append, hds, List.cons_append,
        dollarSplit_ne _ (pyDigit_ne_dollar (hd d (by rw [hds]; simp)))]
    | cons c t =>
      by_cases hcd : c = '$'
      · subst hcd
        refine ⟨t, fun x hx => ha x (by simp [hx]), ?_⟩
        simp [dollarSplit]
      · refine ⟨c :: t, ha, ?_⟩
        have hassoc : (c :: t) ++ ds ++ rest = c :: (t ++ ds ++ rest) := by simp
        rw [hassoc, dollarSplit_ne _ hcd]
  simp only [matchAt, hp2] at h
  by_cases hdig : ((List.dropWhile pySpace (a' ++ ds ++ rest)).takeWhile pyDigit).take 5 = []
  · rw [if_pos hdig] at h
    exact absurd h (by simp)
  · rw [if_neg hdig] at h
    have hcs2 : List.dropWhile pySpace (a' ++ ds ++ rest) = ds ++ rest :=
      cs2_run hdsne hd a' ha' hdig
    have htw : (ds ++ rest).takeWhile pyDigit = ds ++ rest.takeWhile pyDigit :=
      takeWhile_append_all hd rest
    have hdigs5 : ((ds ++ rest).takeWhile pyDigit).take 5 = ds.take 5 := by
      rw [htw]
      exact List.take_append_of_le_length (by omega)
    have hlen5 : (ds.take 5).length = 5 := by
      rw [List.length_take]
      omega
    have hdrop : (ds ++ rest).drop 5 = ds.drop 5 ++ rest :=
      List.drop_append_of_le_length (by omega)
    have hdropne : ds.drop 5 ≠ [] := by
      intro h0
      have := congrArg List.length h0
      rw [List.length_drop] at this
      simp at this
      omega
    rcases List.exists_cons_of_ne_nil hdropne with ⟨e, tl, he⟩
    have hedig : pyDigit e = true :=
      hd e (List.drop_subset 5 ds (by rw [he]; simp))
    have hfrac : fracOf ((ds ++ rest).drop 5) = [] := by
      rw [hdrop, he, List.cons_append]
      simp only [fracOf]
      rw [if_neg (pyDigit_ne_dot hedig)]
    rw [hcs2, hdigs5, hlen5, hfrac] at h
    have htok : tok = (dollarSplit (a ++ ds ++ rest)).1 ++
        (a' ++ ds ++ rest).takeWhile pySpace ++ ds.take 5 ++ [] := by
      injection h with h'
      exact h'.symm
    have hsp : ∀ c ∈ (a' ++ ds ++ rest).takeWhile pySpace, pySpace c = true :=
      fun c hc => List.mem_takeWhile_imp hc
    have hdigs' : ∀ c ∈ ds.take 5, pyDigit c = true :=
      fun c hc => hd c (List.take_subset _ _ hc)
    have htake5ne : ds.take 5 ≠ [] := by
      intro h0
      have := congrArg List.length h0
      rw [hlen5] at this
      simp at this
    rw [htok,
      stripDollar_token (dollarSplit_fst _) hsp hdigs' (Or.inl rfl),
      pyStrip_token hsp hdigs' (Or.inl rfl), List.append_nil]
    exact pyFloatParse_digits htake5ne hdigs'

theorem pySearch_run {ds rest : List Char}
    (hd : ∀ c ∈ ds, pyDigit c = true) (hlen : 6 ≤ ds.length) :
    ∀ a, (∀ c ∈ a, pyDigit c = false) →
      ∃ tok, pySearch (a ++ ds ++ rest) = some tok ∧
        pyFloatParse (pyStrip (stripDollar tok)) =
          some ((digitsToNat (ds.take 5) : ℚ)) := by
  have hdsne : ds ≠ [] := by
    intro h0
    rw [h0] at hlen
    simp at hlen
  intro a
  induction a with
  | nil =>
    intro _
    rcases List.exists_cons_of_ne_nil hdsne with ⟨d, dt, hds⟩
    have hmm : ∃ tok, matchAt ([] ++ ds ++ rest) = some tok := by
      rw [List.nil_append]
      simp only [matchAt]
      rw [hds, List.cons_append,
        dollarSplit_ne _ (pyDigit_ne_dollar (hd d (by rw [hds]; simp))),
        ← List.cons_append, ← hds]
      have hcs2 : List.dropWhile pySpace (ds ++ rest) = ds ++ rest := by
        rw [hds, List.cons_append]
        exact dropWhile_head_false _ (pyDigit_not_space (hd d (by rw [hds]; simp)))
      rw [hcs2]
      have hdigs5 : ((ds ++ rest).takeWhile pyDigit).take 5 = ds.take 5 := by
        rw [takeWhile_append_all hd rest]
        exact List.take_append_of_le_length (by omega)
      rw [hdigs5]
      have htake5ne : ds.take 5 ≠ [] := by
        intro h0
        have h1 := congrArg List.length h0
        rw [List.length_take, List.length_nil] at h1
        omega
      rw [if_neg htake5ne]
      exact ⟨_, rfl⟩
    rcases hmm with ⟨tok, hmtok⟩
    refine ⟨tok, ?_, matchAt_run (by simp) hd hlen hmtok⟩
    rw [List.nil_append] at hmtok ⊢
    rcases List.exists_cons_of_ne_nil (show ds ++ rest ≠ [] by
      intro h0
      rcases List.append_eq_nil.mp h0 with ⟨h1, -⟩
      exact hdsne h1) with ⟨x, xs, hx⟩
    rw [hx] at hmtok ⊢
    rw [pySearch, hmtok]
  | cons c t ih =>
    intro ha
    have hassoc : (c :: t) ++ ds ++ rest = c :: (t ++ ds ++ rest) := by simp
    cases hm : matchAt ((c :: t) ++ ds ++ rest) with
    | some tok =>
      refine ⟨tok, ?_, matchAt_run ha hd hlen hm⟩
      rw [hassoc, pySearch, ← hassoc, hm]
    | none =>
      rcases ih (fun x hx => ha x (by simp [hx])) with ⟨tok, hs, hv⟩
      refine ⟨tok, ?_, hv⟩
      rw [hassoc, pySearch, ← hassoc, hm]
      exact hs

/-- Claim C10.  When the comma-stripped text contains a digit run longer than
5 preceded only by digit-free characters, `extract_price_from_text` does not
reject it: the 1-5 digit pattern matches a prefix, and the result is the
number formed by the first five digits of the run; in particular
`extract_price("123456") = 12345.0`. -/
theorem claim_C10 :
    (∀ (t : String) (a ds rest : List Char),
        t.data.filter (fun c => c ≠ ',') = a ++ ds ++ rest →
        (∀ c ∈ a, pyDigit c = false) →
        (∀ c ∈ ds, pyDigit c = true) →
        6 ≤ ds.length →
        extract_price_from_text t = some ((digitsToNat (ds.take 5) : ℚ))) ∧
    extract_price_from_text "123456" = some 12345 := by
  have key : ∀ (t : String) (a ds rest : List Char),
      t.data.filter (fun c => c ≠ ',') = a ++ ds ++ rest →
      (∀ c ∈ a, pyDigit c = false) →
      (∀ c ∈ ds, pyDigit c = true) →
      6 ≤ ds.length →
      extract_price_from_text t = some ((digitsToNat (ds.take 5) : ℚ)) := by
    intro t a ds rest hfil ha hd hlen
    have hne : t.data ≠ [] := by
      intro h0
      rw [h0, List.filter_nil] at hfil
      rcases List.append_eq_nil.mp hfil.symm with ⟨h2, -⟩
      rcases List.append_eq_nil.mp h2 with ⟨-, h3⟩
      rw [h3] at hlen
      simp at hlen
    rcases pySearch_run hd hlen a ha with ⟨tok, hs, hv⟩
    rw [extract_price_from_text, if_neg (by simpa [List.isEmpty_iff] using hne),
      hfil, hs]
    exact hv
  refine ⟨key, ?_⟩
  rw [key "123456" [] "123456".data [] (by decide) (by decide) (by decide)
    (by decide)]
  rw [show digitsToNat ("123456".data.take 5) = 12345 from by decide]
  norm_num

/-- Witness for claim C10 with a digit-free prefix before the long run. -/
theorem claim_C10_witness :
    extract_price_from_text "a1234567" =
      some ((digitsToNat ("123456".data.take 5) : ℚ)) :=
  claim_C10.1 "a1234567" ['a'] "123456".data ['7'] (by decide) (by decide)
    (by decide) (by decide)
